import Mathlib

/-!
Shallow embedding of the response-composition engine of the
mediawiki-based-adv repository, together with proofs of the behavioural
claims about it.

Sources embedded here:
* `src/lib/MediaWikiAdventureBot.ts` — `addMissingPunctuation`,
  `randomBetween`, `respond`, `fillWithRandom`, `getWordFreqs`,
  `getRandomTitles`, `getArticleExcerpts`.
* `WordFreqRecorder` — `getFreq` with its cache and retry loop.

Network collaborators (wiki search, random titles, article extracts, the
word-frequency transport, the credential bootstrap) are modelled as oracle
functions; each call site consumes a distinct oracle index so that distinct
network calls may answer differently.  Randomness (`Math.random()`) is
modelled as rational draws in `[0, 1)` supplied as parameters.  JS numbers
are modelled as rationals; the `fillWithRandom` do/while loop is modelled
with explicit fuel, `none` standing for non-termination within that fuel.
-/

namespace MWAdv

/-- `MAX_SENTENCES` from the source: the maximum number of resulting sentences. -/
def MAX_SENTENCES : ℚ := 6

/-- `MIN_SENTENCES` from the source: the minimum number of sentences, if possible. -/
def MIN_SENTENCES : ℚ := 2

/-- The terminal punctuation characters of the `switch` in `addMissingPunctuation`. -/
def terminalPunct : List Char := ['.', '!', '?', ':', ';', ',']

/-- `addMissingPunctuation` from the source: adds a period to a sentence if it
does not already end in one of the terminal punctuation characters.  The
`switch` on the last character (with `undefined` for the empty string falling
to the `default` branch) is modelled by matching on `str.data.getLast?`. -/
def addMissingPunctuation (str : String) : String :=
  match str.data.getLast? with
  | some c => if c ∈ terminalPunct then str else str ++ "."
  | none => str ++ "."

/-- `randomBetween` from the source: a random number in `[lo, hi]` (both
inclusive), where `r` models the `Math.random()` draw in `[0, 1)`. -/
def randomBetween (lo hi r : ℚ) : ℚ :=
  if lo = hi then lo else ((⌊lo + (hi - lo + 1) * r⌋ : ℤ) : ℚ)

/-- Models `String.prototype.toLowerCase()` (as Lean's `Char.toLower`, which
lowers the ASCII range), written as a structural map over the characters. -/
def lowerStr (s : String) : String := ⟨s.data.map Char.toLower⟩

/-- The target sentence count of a `respond` call:
`Math.floor(randomBetween(MIN_SENTENCES, MAX_SENTENCES))` with `r` the
`Math.random()` draw, read as a natural number for list-length comparisons. -/
def targetOf (r : ℚ) : ℕ := (⌊randomBetween MIN_SENTENCES MAX_SENTENCES r⌋ : ℤ).toNat

/-- The word-frequency record of the frequency API (`IWordFreq` in the source). -/
structure IWordFreq where
  zipf : ℚ
  perMillion : ℚ
  diversity : ℚ
deriving DecidableEq, Repr

/-- Outcome of one `transport.get` attempt inside `getFreq`: either a
frequency record, or an HTTP error carrying `err.response.status`. -/
inductive FreqAttempt where
  | ok (freq : IWordFreq)
  | httpErr (status : ℕ)
deriving DecidableEq, Repr

/-- The mutable state of a `WordFreqRecorder` instance: the `_cache` map
(`undefined` values, recording known-absent words, are modelled as `none`)
and the `_when` / `_encrypted` session parameters. -/
structure RecorderState where
  cache : List (String × Option IWordFreq)
  whenParam : Option String
  encryptedParam : Option String
deriving DecidableEq, Repr

/-- Association-list lookup modelling `hasOwnProperty` plus indexing into the
cache object: `some v` means the key is present with stored value `v`. -/
def cacheLookup : List (String × Option IWordFreq) → String → Option (Option IWordFreq)
  | [], _ => none
  | (k, v) :: rest, key => if k = key then some v else cacheLookup rest key

/-- Association-list store modelling `this._cache[key] = v`. -/
def cacheInsert : List (String × Option IWordFreq) → String → Option IWordFreq →
    List (String × Option IWordFreq)
  | [], key, v => [(key, v)]
  | (k, w) :: rest, key, v =>
    if k = key then (k, v) :: rest else (k, w) :: cacheInsert rest key v

/-- Result of a `getFreq` call: `ok (some f)` a record, `ok none` the
known-absent outcome (`resolve(undefined)`), `err s` a rejection with the
status of the last failed attempt. -/
inductive GetFreqResult where
  | ok (freq : Option IWordFreq)
  | err (status : ℕ)
deriving DecidableEq, Repr

/-- `fetchTransportInfo` from the source, with the bootstrap page's two
extracted parameters supplied by the oracle value `p`. -/
def applyRefresh (st : RecorderState) (p : String × String) : RecorderState :=
  { st with whenParam := some p.1, encryptedParam := some p.2 }

/-- The `retryOp.attempt` loop inside `getFreq`.  `attemptOf i` is the outcome
of the `i`-th transport attempt of this call, `refreshOf j` the parameters
extracted by the `j`-th `fetchTransportInfo` of this call.  `retriesLeft`
models the remaining retry budget of the `retry` operation: `retryOp.retry`
answers `false` exactly when it is zero. -/
def getFreqLoop (attemptOf : ℕ → FreqAttempt) (refreshOf : ℕ → String × String)
    (key : String) : ℕ → ℕ → ℕ → RecorderState → GetFreqResult × RecorderState
  | 0, i, j, st =>
    match attemptOf i with
    | .ok freq => (.ok (some freq), { st with cache := cacheInsert st.cache key (some freq) })
    | .httpErr status =>
      if status = 404 then
        (.ok none, { st with cache := cacheInsert st.cache key none })
      else
        (.err status, if status = 401 then applyRefresh st (refreshOf j) else st)
  | rl + 1, i, j, st =>
    match attemptOf i with
    | .ok freq => (.ok (some freq), { st with cache := cacheInsert st.cache key (some freq) })
    | .httpErr status =>
      if status = 404 then
        (.ok none, { st with cache := cacheInsert st.cache key none })
      else
        getFreqLoop attemptOf refreshOf key rl (i + 1) (if status = 401 then j + 1 else j)
          (if status = 401 then applyRefresh st (refreshOf j) else st)

/-- `WordFreqRecorder.getFreq` from the source: cache hit returns the stored
value untouched; otherwise the session parameters are bootstrapped if absent
and the retry loop runs with the configured number of retries. -/
def getFreq (retries : ℕ) (attemptOf : ℕ → FreqAttempt) (refreshOf : ℕ → String × String)
    (st : RecorderState) (word : String) : GetFreqResult × RecorderState :=
  match cacheLookup st.cache (lowerStr word) with
  | some v => (.ok v, st)
  | none =>
    match st.whenParam with
    | none =>
      getFreqLoop attemptOf refreshOf (lowerStr word) retries 0 1 (applyRefresh st (refreshOf 0))
    | some _ => getFreqLoop attemptOf refreshOf (lowerStr word) retries 0 0 st

/-- `getWordFreqs` from the source, threading the recorder state and
propagating a `getFreq` rejection (the source has no try/catch here): walks
the word list, skips words already present in the accumulated record, calls
`getFreq` on the rest and keeps those whose result is a record. -/
def getWordFreqsE (retries : ℕ) (attemptOf : String → ℕ → FreqAttempt)
    (refreshOf : ℕ → String × String) :
    RecorderState → List String → List (String × IWordFreq) →
    Except ℕ (List (String × IWordFreq)) × RecorderState
  | st, [], acc => (.ok acc, st)
  | st, w :: ws, acc =>
    if w ∈ acc.map Prod.fst then
      getWordFreqsE retries attemptOf refreshOf st ws acc
    else
      match getFreq retries (attemptOf w) refreshOf st w with
      | (.ok (some f), st2) => getWordFreqsE retries attemptOf refreshOf st2 ws (acc ++ [(w, f)])
      | (.ok none, st2) => getWordFreqsE retries attemptOf refreshOf st2 ws acc
      | (.err e, st2) => (.error e, st2)

/-- The ranking pipeline of `respond` at the level of (word, record) pairs:
`Object.keys(wordFreqs).filter(word => wordFreqs[word].perMillion < 1000)
.sort((a, b) => ...)`.  JS objects with string keys preserve insertion order,
so the record is the association list built by `getWordFreqsE`; the stable
`Array.prototype.sort` with comparator `a.perMillion - b.perMillion` is
modelled by the stable `insertionSort` under `≤` on `perMillion`. -/
def rankedPairs (wordFreqs : List (String × IWordFreq)) : List (String × IWordFreq) :=
  (wordFreqs.filter (fun p => decide (p.2.perMillion < 1000))).insertionSort
    (fun p q => p.2.perMillion ≤ q.2.perMillion)

/-- The ranked word sequence (`wordsByFreq` in `respond`). -/
def rankWords (wordFreqs : List (String × IWordFreq)) : List String :=
  (rankedPairs wordFreqs).map Prod.fst

/-- The `while` loop of `respond` that resolves candidate words to titles via
`opensearch`.  `searchOf w` models the request's `searchResult[1]` (the list
of matching titles) or a thrown error; on a non-empty result the source
pushes the candidate word `currWordTitle` itself; errors are swallowed. -/
def resolveTitles (searchOf : String → Except Unit (List String)) (count : ℕ) :
    List String → List String → List String
  | [], acc => acc
  | w :: rest, acc =>
    if acc.length < count then
      match searchOf w with
      | .ok ts => resolveTitles searchOf count rest (if 0 < ts.length then acc ++ [w] else acc)
      | .error _ => resolveTitles searchOf count rest acc
    else acc

/-- Lines 119–122 of `respond`: if fewer titles than the target were resolved,
append `getRandomTitles(shortfall)`; this is random-titles call number `0`. -/
def topUpTitles (rt : ℕ → ℕ → List String) (target : ℕ) (wordTitles : List String) :
    List String :=
  if wordTitles.length < target then wordTitles ++ rt 0 (target - wordTitles.length)
  else wordTitles

/-- Lines 132–137 of `fillWithRandom`: top up `nextTitles` by a random-titles
draw of the current shortfall when it holds fewer titles than that. -/
def nextBatch (rt : ℕ → ℕ → List String) (j : ℕ) (short : ℕ)
    (nextTitles : List String) : List String :=
  if nextTitles.length < short then nextTitles ++ rt j short else nextTitles

/-- The do/while loop of `fillWithRandom`, with explicit fuel (`none` models
the loop not having exited within `fuel` iterations).  `rt j n` is the result
of random-titles call number `j` with `rnlimit = n`; `ex k ts` is the list of
ExcerptSets returned by excerpt-fetch call number `k` on titles `ts`. -/
def fillLoop (rt : ℕ → ℕ → List String) (ex : ℕ → List String → List (List String)) :
    ℕ → ℕ → ℕ → List (List String) → List String → ℕ → Option (List (List String))
  | 0, _, _, _, _, _ => none
  | fuel + 1, j, k, excerpts, nextTitles, target =>
    let nts := nextBatch rt j (target - excerpts.length) nextTitles
    let j2 := if nextTitles.length < target - excerpts.length then j + 1 else j
    let newExcerpts := (ex k nts).filter (fun e => decide (0 < e.length))
    let excerpts2 := excerpts ++ newExcerpts
    if excerpts2.length < target then fillLoop rt ex fuel j2 (k + 1) excerpts2 [] target
    else some excerpts2

/-- The sampling index `Math.floor(Math.random() * excerpt.length)` for a
random draw `r` and an excerpt of `len` sentences. -/
def sampleIdx (r : ℚ) (len : ℕ) : ℕ := (⌊r * (len : ℚ)⌋ : ℤ).toNat

/-- The sampling step of `fillWithRandom`, one ExcerptSet at a time: position
`i` uses the `i`-th `Math.random()` draw `pick i`, indexes into the set (the
index is in range whenever the set is non-empty and the draw lies in
`[0, 1)`), and fixes up the punctuation of the chosen sentence. -/
def composeSentencesAux (pick : ℕ → ℚ) : ℕ → List (List String) → List String
  | _, [] => []
  | i, e :: rest =>
    addMissingPunctuation (e.getD (sampleIdx (pick i) e.length) "") ::
      composeSentencesAux pick (i + 1) rest

/-- The full sampling step of `fillWithRandom`: the two `.map`s over the
accumulated ExcerptSets. -/
def composeSentences (pick : ℕ → ℚ) (excerpts : List (List String)) : List String :=
  composeSentencesAux pick 0 excerpts

/-- The collaborators of one `respond` call, as oracles. -/
structure RespondOracles where
  /-- lodash `words`: the tokenizer applied to the lowercased question. -/
  wordsOf : String → List String
  /-- Per word, the outcomes of the successive frequency-transport attempts. -/
  freqAttempt : String → ℕ → FreqAttempt
  /-- Per `fetchTransportInfo` call, the extracted session parameters. -/
  refreshOf : ℕ → String × String
  /-- `opensearch`: the matching-title list `searchResult[1]`, or a thrown error. -/
  searchOf : String → Except Unit (List String)
  /-- `getRandomTitles`, indexed by call number. -/
  rtOracle : ℕ → ℕ → List String
  /-- `getArticleExcerpts`, indexed by call number. -/
  exOracle : ℕ → List String → List (List String)
  /-- The `Math.random()` draws of the sentence-sampling step. -/
  pick : ℕ → ℚ

/-- The title-resolution phase of `respond` (everything before the
`fillWithRandom` call): the target draw, the empty-question edge case, word
frequencies, ranking, the search loop, and the random top-up.  Returns the
title list handed to `fillWithRandom`, or the propagated `getFreq` error. -/
def respondTitles (o : RespondOracles) (retries : ℕ) (r : ℚ) (st : RecorderState)
    (question : String) : Except ℕ (List String) × RecorderState :=
  let target := targetOf r
  if question = "" then
    (.ok (topUpTitles o.rtOracle target []), st)
  else
    match getWordFreqsE retries o.freqAttempt o.refreshOf st (o.wordsOf (lowerStr question)) [] with
    | (.error e, st2) => (.error e, st2)
    | (.ok wf, st2) =>
      let wordsByFreq := rankWords wf
      let wordTitles :=
        if 0 < wordsByFreq.length then resolveTitles o.searchOf target wordsByFreq [] else []
      (.ok (topUpTitles o.rtOracle target wordTitles), st2)

/-- A full `respond` call, returning the list of chosen, punctuation-fixed
sentences (the final response string is their join with single spaces).
`r` is the `Math.random()` draw of the target-count line; random-titles call
numbers `1, 2, …` belong to the `fillWithRandom` loop. -/
def respondSentences (o : RespondOracles) (retries fuel : ℕ) (r : ℚ) (st : RecorderState)
    (question : String) : Except ℕ (Option (List String)) × RecorderState :=
  let target := targetOf r
  match respondTitles o retries r st question with
  | (.error e, st2) => (.error e, st2)
  | (.ok titles, st2) =>
    match fillLoop o.rtOracle o.exOracle fuel 1 0 [] titles target with
    | none => (.ok none, st2)
    | some excerpts => (.ok (some (composeSentences o.pick excerpts)), st2)

/-- The response string of a `respond` call: the chosen sentences joined with
single spaces. -/
def respond (o : RespondOracles) (retries fuel : ℕ) (r : ℚ) (st : RecorderState)
    (question : String) : Except ℕ (Option String) × RecorderState :=
  match respondSentences o retries fuel r st question with
  | (.error e, st2) => (.error e, st2)
  | (.ok none, st2) => (.ok none, st2)
  | (.ok (some sents), st2) => (.ok (some (String.intercalate " " sents)), st2)

/-! Concrete states and oracles used by witnesses and counterexamples. -/

/-- The fresh recorder state of a new `WordFreqRecorder`. -/
def st0 : RecorderState := { cache := [], whenParam := none, encryptedParam := none }

/-- A concrete frequency record used by witnesses. -/
def demoFreq : IWordFreq := { zipf := 1, perMillion := 300, diversity := 1 }

/-- A transport oracle whose every attempt succeeds with `demoFreq`. -/
def okA : ℕ → FreqAttempt := fun _ => .ok demoFreq

/-- A transport oracle whose every attempt fails with the given status. -/
def errA (status : ℕ) : ℕ → FreqAttempt := fun _ => .httpErr status

/-- A bootstrap oracle with fixed session parameters. -/
def rfWE : ℕ → String × String := fun _ => ("w", "e")

/-- The recorder state after a first successful lookup of `cat` from `st0`. -/
def stCat : RecorderState :=
  { cache := [("cat", some demoFreq)], whenParam := some "w", encryptedParam := some "e" }

/-- The recorder state after a retry-exhausted lookup from `st0`: the session
parameters got bootstrapped but no cache entry was written. -/
def stErr : RecorderState := { cache := [], whenParam := some "w", encryptedParam := some "e" }

/-- Oracles whose frequency transport always fails with 503: the tokenizer
yields the message itself as its only word, search finds nothing, random
titles and excerpts always succeed. -/
def failO : RespondOracles where
  wordsOf := fun s => [s]
  freqAttempt := fun _ _ => .httpErr 503
  refreshOf := fun _ => ("w", "e")
  searchOf := fun _ => .ok []
  rtOracle := fun _ n => List.replicate n "T"
  exOracle := fun _ ts => ts.map (fun t => [t])
  pick := fun _ => 0

/-- Oracles whose frequency transport always fails with 500 (used to exhibit
that `respond` rejects rather than producing a response). -/
def failO500 : RespondOracles where
  wordsOf := fun s => [s]
  freqAttempt := fun _ _ => .httpErr 500
  refreshOf := fun _ => ("w", "e")
  searchOf := fun _ => .ok []
  rtOracle := fun _ n => List.replicate n "T"
  exOracle := fun _ ts => ts.map (fun t => [t])
  pick := fun _ => 0

/-- A rarer concrete frequency record used by witnesses. -/
def rareFreq : IWordFreq := { zipf := 1, perMillion := 5, diversity := 1 }

/-- Oracles for the ranking witness: the tokenizer yields `aa` then `bb`,
`aa` resolving to the common record and `bb` to the rare one. -/
def rankO : RespondOracles where
  wordsOf := fun _ => ["aa", "bb"]
  freqAttempt := fun w _ => if w = "bb" then .ok rareFreq else .ok demoFreq
  refreshOf := fun _ => ("w", "e")
  searchOf := fun _ => .ok []
  rtOracle := fun _ n => List.replicate n "T"
  exOracle := fun _ ts => ts.map (fun t => [t])
  pick := fun _ => 0

/-- The word-frequency record `getWordFreqs` builds for the ranking witness. -/
def wfDemo : List (String × IWordFreq) := [("aa", demoFreq), ("bb", rareFreq)]

/-- The recorder state after the ranking witness's two lookups. -/
def stRank : RecorderState :=
  { cache := [("aa", some demoFreq), ("bb", some rareFreq)],
    whenParam := some "w", encryptedParam := some "e" }

/-- Oracles realizing the spec's `cat` scenario: the tokenizer yields the
message itself, `cat` is rare, and searching `cat` finds the title `Cat`. -/
def catO : RespondOracles where
  wordsOf := fun s => [s]
  freqAttempt := fun _ _ => .ok rareFreq
  refreshOf := fun _ => ("w", "e")
  searchOf := fun w => if w = "cat" then .ok ["Cat"] else .ok []
  rtOracle := fun _ n => List.replicate n "R"
  exOracle := fun _ ts => ts.map (fun t => [t])
  pick := fun _ => 0

/-- The `fillWithRandom` loop diverges from the given configuration: no
amount of fuel makes it exit. -/
def fillLoopDiverges (rt : ℕ → ℕ → List String) (ex : ℕ → List String → List (List String))
    (j k : ℕ) (excerpts : List (List String)) (nextTitles : List String) (target : ℕ) : Prop :=
  ∀ fuel, fillLoop rt ex fuel j k excerpts nextTitles target = none

/-- The precondition named by the spec: every excerpt fetch of a non-empty
title batch yields at least one non-empty ExcerptSet (after dropping the
empty ones). -/
def exFetchProductive (ex : ℕ → List String → List (List String)) : Prop :=
  ∀ k ts, ts ≠ [] → (ex k ts).filter (fun e => decide (0 < e.length)) ≠ []

/-- An excerpt oracle answering one singleton ExcerptSet per title. -/
def exEcho : ℕ → List String → List (List String) := fun _ ts => ts.map (fun t => [t])

/-- A random-titles oracle that always returns no titles. -/
def rtEmpty : ℕ → ℕ → List String := fun _ _ => []

/-- A random-titles oracle for the sentence-count counterexample: the
`respond` top-up call (number 0) returns one title fewer than its requested
two; the fill loop's own draw (number 1) returns two titles. -/
def c1rt : ℕ → ℕ → List String := fun j _ => if j = 0 then ["A"] else ["B", "C"]

/-- Oracles for the sentence-count counterexample. -/
def c1O : RespondOracles where
  wordsOf := fun s => [s]
  freqAttempt := fun _ _ => .ok demoFreq
  refreshOf := fun _ => ("w", "e")
  searchOf := fun _ => .ok []
  rtOracle := c1rt
  exOracle := exEcho
  pick := fun _ => 0

/-- Oracles for the sentence-count witness: random draws return exactly the
requested number of titles. -/
def c1wO : RespondOracles where
  wordsOf := fun s => [s]
  freqAttempt := fun _ _ => .ok demoFreq
  refreshOf := fun _ => ("w", "e")
  searchOf := fun _ => .ok []
  rtOracle := fun _ n => List.replicate n "T"
  exOracle := exEcho
  pick := fun _ => 0

end MWAdv

/-! ## Theorems -/

namespace MWAdv

/-- Evaluation helper: the target drawn from `Math.random() = 0` is `2`. -/
theorem targetOf_zero : targetOf 0 = 2 := by
  norm_num [targetOf, randomBetween, MIN_SENTENCES, MAX_SENTENCES]
  rfl

/-- Evaluation helper: the sampling index of the draw `0` is `0`. -/
theorem sampleIdx_zero (n : ℕ) : sampleIdx 0 n = 0 := by
  simp [sampleIdx]

/-- Evaluation helper: sampling with all draws `0` picks each set's head. -/
theorem composeSentencesAux_zero (excerpts : List (List String)) (i : ℕ) :
    composeSentencesAux (fun _ => 0) i excerpts =
      excerpts.map (fun e => addMissingPunctuation (e.getD 0 "")) := by
  induction excerpts generalizing i with
  | nil => rfl
  | cons e rest ih => simp [composeSentencesAux, sampleIdx_zero, ih]

/-- Helper: appending a period puts a period at the end. -/
theorem getLast?_append_dot (t : String) : (t ++ ".").data.getLast? = some '.' := by
  rw [String.data_append]
  exact List.getLast?_concat _

/-- C6: `addMissingPunctuation` returns the string unchanged when its last
character is one of `. ! ? : ; ,`, otherwise (including on the empty string)
returns it with exactly one trailing period appended, and is idempotent. -/
theorem addMissingPunctuation_fixup (s : String) :
    ((∃ c, s.data.getLast? = some c ∧ c ∈ terminalPunct) → addMissingPunctuation s = s) ∧
    ((∀ c, s.data.getLast? = some c → c ∉ terminalPunct) →
      addMissingPunctuation s = s ++ ".") ∧
    addMissingPunctuation (addMissingPunctuation s) = addMissingPunctuation s := by
  refine ⟨?_, ?_, ?_⟩
  · rintro ⟨c, hc, hmem⟩
    simp [addMissingPunctuation, hc, hmem]
  · intro h
    unfold addMissingPunctuation
    cases hl : s.data.getLast? with
    | none => rfl
    | some c => simp [h c hl]
  · have hdot : ∀ t : String, addMissingPunctuation (t ++ ".") = t ++ "." := by
      intro t
      simp [addMissingPunctuation, getLast?_append_dot, terminalPunct]
    cases hl : s.data.getLast? with
    | none =>
      have e1 : addMissingPunctuation s = s ++ "." := by simp [addMissingPunctuation, hl]
      rw [e1, hdot]
    | some c =>
      by_cases hmem : c ∈ terminalPunct
      · have e1 : addMissingPunctuation s = s := by simp [addMissingPunctuation, hl, hmem]
        rw [e1, e1]
      · have e1 : addMissingPunctuation s = s ++ "." := by simp [addMissingPunctuation, hl, hmem]
        rw [e1, hdot]

/-- Witness for C6 at the concrete strings `"ok!"` (already punctuated) and
`"ok"` (gains exactly one trailing period). -/
theorem addMissingPunctuation_fixup_witness :
    addMissingPunctuation "ok!" = "ok!" ∧ addMissingPunctuation "ok" = "ok" ++ "." := by
  refine ⟨(addMissingPunctuation_fixup "ok!").1 ⟨'!', rfl, by decide⟩,
    (addMissingPunctuation_fixup "ok").2.1 ?_⟩
  intro c hc
  rw [show ("ok".data.getLast?) = some 'k' from rfl] at hc
  injection hc with h
  rw [← h]
  decide

/-- C9: for every `Math.random()` draw `r ∈ [0, 1)`, the drawn target
`randomBetween(MIN_SENTENCES, MAX_SENTENCES)` is an integer between 2 and 6
inclusive, and it equals `k` exactly when `r` lies in the subinterval
`[(k-2)/5, (k-1)/5)` — five subintervals of equal length `1/5`. -/
theorem randomBetween_target_uniform (r : ℚ) (h0 : 0 ≤ r) (h1 : r < 1) :
    (2 ≤ randomBetween MIN_SENTENCES MAX_SENTENCES r ∧
      randomBetween MIN_SENTENCES MAX_SENTENCES r ≤ 6 ∧
      ∃ k : ℤ, randomBetween MIN_SENTENCES MAX_SENTENCES r = (k : ℚ)) ∧
    (∀ k : ℤ, 2 ≤ k → k ≤ 6 →
      (randomBetween MIN_SENTENCES MAX_SENTENCES r = (k : ℚ) ↔
        ((k : ℚ) - 2) / 5 ≤ r ∧ r < ((k : ℚ) - 1) / 5)) := by
  have hrb : randomBetween MIN_SENTENCES MAX_SENTENCES r = ((⌊(2 : ℚ) + 5 * r⌋ : ℤ) : ℚ) := by
    rw [randomBetween]
    norm_num [MIN_SENTENCES, MAX_SENTENCES]
  have hfl : (2 : ℤ) ≤ ⌊(2 : ℚ) + 5 * r⌋ := by
    rw [Int.le_floor]
    push_cast
    nlinarith
  have hfu : ⌊(2 : ℚ) + 5 * r⌋ < 7 := by
    rw [Int.floor_lt]
    push_cast
    nlinarith
  refine ⟨⟨?_, ?_, ⟨⌊(2 : ℚ) + 5 * r⌋, hrb⟩⟩, ?_⟩
  · rw [hrb]
    exact_mod_cast hfl
  · rw [hrb]
    have : ⌊(2 : ℚ) + 5 * r⌋ ≤ 6 := by omega
    exact_mod_cast this
  · intro k _ _
    rw [hrb]
    constructor
    · intro hk
      have hk2 : ⌊(2 : ℚ) + 5 * r⌋ = k := by exact_mod_cast hk
      rw [Int.floor_eq_iff] at hk2
      obtain ⟨hl2, hr2⟩ := hk2
      constructor
      · rw [div_le_iff₀ (by norm_num : (0 : ℚ) < 5)]
        linarith
      · rw [lt_div_iff₀ (by norm_num : (0 : ℚ) < 5)]
        linarith
    · rintro ⟨hl2, hr2⟩
      rw [div_le_iff₀ (by norm_num : (0 : ℚ) < 5)] at hl2
      rw [lt_div_iff₀ (by norm_num : (0 : ℚ) < 5)] at hr2
      have hk2 : ⌊(2 : ℚ) + 5 * r⌋ = k := by
        rw [Int.floor_eq_iff]
        constructor <;> linarith
      exact_mod_cast hk2

/-- Inserting under a key makes that key's lookup hit the stored value. -/
theorem cacheLookup_insert_self (c : List (String × Option IWordFreq)) (key : String)
    (v : Option IWordFreq) : cacheLookup (cacheInsert c key v) key = some v := by
  induction c with
  | nil => simp [cacheInsert, cacheLookup]
  | cons p rest ih =>
    by_cases h : p.1 = key
    · simp [cacheInsert, cacheLookup, h]
    · simp [cacheInsert, cacheLookup, h, ih]

/-- Inserting under a key leaves every other key's lookup unchanged. -/
theorem cacheLookup_insert_ne (c : List (String × Option IWordFreq)) (key k : String)
    (v : Option IWordFreq) (h : k ≠ key) :
    cacheLookup (cacheInsert c key v) k = cacheLookup c k := by
  have hne : ¬ key = k := fun h2 => h h2.symm
  induction c with
  | nil => simp only [cacheInsert, cacheLookup, if_neg hne]
  | cons p rest ih =>
    obtain ⟨pk, pv⟩ := p
    by_cases hp : pk = key
    · subst hp
      simp only [cacheInsert, if_pos rfl, cacheLookup, if_neg hne]
    · simp only [cacheInsert, if_neg hp, cacheLookup, ih]

/-- A retry loop that resolves leaves the resolved value stored under the key. -/
theorem getFreqLoop_ok_cache (attemptOf : ℕ → FreqAttempt) (refreshOf : ℕ → String × String)
    (key : String) :
    ∀ (rl i j : ℕ) (st st2 : RecorderState) (v : Option IWordFreq),
      getFreqLoop attemptOf refreshOf key rl i j st = (.ok v, st2) →
      cacheLookup st2.cache key = some v := by
  intro rl
  induction rl with
  | zero =>
    intro i j st st2 v h
    cases hA : attemptOf i with
    | ok freq =>
      simp only [getFreqLoop, hA, Prod.mk.injEq, GetFreqResult.ok.injEq] at h
      rw [← h.2, ← h.1]
      exact cacheLookup_insert_self _ _ _
    | httpErr status =>
      by_cases h404 : status = 404
      · simp only [getFreqLoop, hA, h404, if_true, Prod.mk.injEq, GetFreqResult.ok.injEq] at h
        rw [← h.2, ← h.1]
        exact cacheLookup_insert_self _ _ _
      · simp only [getFreqLoop, hA, if_neg h404, Prod.mk.injEq] at h
        exact absurd h.1 (by simp)
  | succ r ih =>
    intro i j st st2 v h
    cases hA : attemptOf i with
    | ok freq =>
      simp only [getFreqLoop, hA, Prod.mk.injEq, GetFreqResult.ok.injEq] at h
      rw [← h.2, ← h.1]
      exact cacheLookup_insert_self _ _ _
    | httpErr status =>
      by_cases h404 : status = 404
      · simp only [getFreqLoop, hA, h404, if_true, Prod.mk.injEq, GetFreqResult.ok.injEq] at h
        rw [← h.2, ← h.1]
        exact cacheLookup_insert_self _ _ _
      · simp only [getFreqLoop, hA, if_neg h404] at h
        exact ih _ _ _ _ _ h

/-- A retry loop that rejects never touches the cache. -/
theorem getFreqLoop_err_cache (attemptOf : ℕ → FreqAttempt) (refreshOf : ℕ → String × String)
    (key : String) :
    ∀ (rl i j : ℕ) (st st2 : RecorderState) (e : ℕ),
      getFreqLoop attemptOf refreshOf key rl i j st = (.err e, st2) →
      st2.cache = st.cache := by
  intro rl
  induction rl with
  | zero =>
    intro i j st st2 e h
    cases hA : attemptOf i with
    | ok freq =>
      simp only [getFreqLoop, hA, Prod.mk.injEq] at h
      exact absurd h.1 (by simp)
    | httpErr status =>
      by_cases h404 : status = 404
      · simp only [getFreqLoop, hA, h404, if_true, Prod.mk.injEq] at h
        exact absurd h.1 (by simp)
      · simp only [getFreqLoop, hA, if_neg h404, Prod.mk.injEq] at h
        rw [← h.2]
        by_cases h401 : status = 401 <;> simp [h401, applyRefresh]
  | succ r ih =>
    intro i j st st2 e h
    cases hA : attemptOf i with
    | ok freq =>
      simp only [getFreqLoop, hA, Prod.mk.injEq] at h
      exact absurd h.1 (by simp)
    | httpErr status =>
      by_cases h404 : status = 404
      · simp only [getFreqLoop, hA, h404, if_true, Prod.mk.injEq] at h
        exact absurd h.1 (by simp)
      · simp only [getFreqLoop, hA, if_neg h404] at h
        rw [ih _ _ _ _ _ h]
        by_cases h401 : status = 401 <;> simp [h401, applyRefresh]

/-- The cache of the state a retry loop leaves behind is either the cache it
started from or that cache with one value stored under the loop's key. -/
theorem getFreqLoop_cache_shape (attemptOf : ℕ → FreqAttempt) (refreshOf : ℕ → String × String)
    (key : String) :
    ∀ (rl i j : ℕ) (st : RecorderState),
      (getFreqLoop attemptOf refreshOf key rl i j st).2.cache = st.cache ∨
      ∃ v, (getFreqLoop attemptOf refreshOf key rl i j st).2.cache = cacheInsert st.cache key v := by
  intro rl
  induction rl with
  | zero =>
    intro i j st
    cases hA : attemptOf i with
    | ok freq => exact Or.inr ⟨some freq, by simp [getFreqLoop, hA]⟩
    | httpErr status =>
      by_cases h404 : status = 404
      · exact Or.inr ⟨none, by simp [getFreqLoop, hA, h404]⟩
      · refine Or.inl ?_
        by_cases h401 : status = 401 <;>
          simp [getFreqLoop, hA, if_neg h404, h401, applyRefresh]
  | succ r ih =>
    intro i j st
    cases hA : attemptOf i with
    | ok freq => exact Or.inr ⟨some freq, by simp [getFreqLoop, hA]⟩
    | httpErr status =>
      by_cases h404 : status = 404
      · exact Or.inr ⟨none, by simp [getFreqLoop, hA, h404]⟩
      · have hstep :
            getFreqLoop attemptOf refreshOf key (r + 1) i j st =
              getFreqLoop attemptOf refreshOf key r (i + 1)
                (if status = 401 then j + 1 else j)
                (if status = 401 then applyRefresh st (refreshOf j) else st) := by
          simp [getFreqLoop, hA, if_neg h404]
        have hcache :
            (if status = 401 then applyRefresh st (refreshOf j) else st).cache = st.cache := by
          by_cases h401 : status = 401 <;> simp [h401, applyRefresh]
        rw [hstep]
        rcases ih (i + 1) (if status = 401 then j + 1 else j)
            (if status = 401 then applyRefresh st (refreshOf j) else st) with h | ⟨v, hv⟩
        · exact Or.inl (h.trans hcache)
        · exact Or.inr ⟨v, by rw [hv, hcache]⟩

/-- Witness for C9 at the concrete draw `r = 1/2` (which yields target 4). -/
theorem randomBetween_target_uniform_witness :
    (2 ≤ randomBetween MIN_SENTENCES MAX_SENTENCES (1 / 2) ∧
      randomBetween MIN_SENTENCES MAX_SENTENCES (1 / 2) ≤ 6 ∧
      ∃ k : ℤ, randomBetween MIN_SENTENCES MAX_SENTENCES (1 / 2) = (k : ℚ)) ∧
    (∀ k : ℤ, 2 ≤ k → k ≤ 6 →
      (randomBetween MIN_SENTENCES MAX_SENTENCES (1 / 2) = (k : ℚ) ↔
        ((k : ℚ) - 2) / 5 ≤ 1 / 2 ∧ (1 : ℚ) / 2 < ((k : ℚ) - 1) / 5)) :=
  randomBetween_target_uniform (1 / 2) (by norm_num) (by norm_num)

/-- A cache hit returns the stored value with the state untouched. -/
theorem getFreq_hit (retries : ℕ) (a : ℕ → FreqAttempt) (rf : ℕ → String × String)
    (st : RecorderState) (word : String) (v : Option IWordFreq)
    (h : cacheLookup st.cache (lowerStr word) = some v) :
    getFreq retries a rf st word = (.ok v, st) := by
  simp [getFreq, h]

/-- A `getFreq` call that resolves leaves the resolved value stored under the
word's lowercased key. -/
theorem getFreq_ok_cache (retries : ℕ) (a : ℕ → FreqAttempt) (rf : ℕ → String × String)
    (st st2 : RecorderState) (word : String) (v : Option IWordFreq)
    (h : getFreq retries a rf st word = (.ok v, st2)) :
    cacheLookup st2.cache (lowerStr word) = some v := by
  cases hc : cacheLookup st.cache (lowerStr word) with
  | some v2 =>
    rw [getFreq_hit retries a rf st word v2 hc] at h
    obtain ⟨h1, h2⟩ := Prod.mk.injEq .. ▸ h
    obtain rfl : v2 = v := by simpa using h1
    rw [← h2]
    exact hc
  | none =>
    simp only [getFreq, hc] at h
    cases hw : st.whenParam with
    | none =>
      simp only [hw] at h
      exact getFreqLoop_ok_cache a rf (lowerStr word) retries 0 1 (applyRefresh st (rf 0)) st2 v h
    | some p =>
      simp only [hw] at h
      exact getFreqLoop_ok_cache a rf (lowerStr word) retries 0 0 st st2 v h

/-- C4: once a first `getFreq` call on a word has resolved (with a record or
with the known-absent outcome), every later `getFreq` call on that word
returns the same cached outcome with the state unchanged, independently of
the transport and bootstrap oracles — i.e. with no network access. -/
theorem getFreq_cache_hit_after_resolve (retries retries2 : ℕ)
    (a1 a2 : ℕ → FreqAttempt) (rf1 rf2 : ℕ → String × String)
    (st st2 : RecorderState) (word : String) (v : Option IWordFreq)
    (h : getFreq retries a1 rf1 st word = (.ok v, st2)) :
    getFreq retries2 a2 rf2 st2 word = (.ok v, st2) :=
  getFreq_hit retries2 a2 rf2 st2 word v (getFreq_ok_cache retries a1 rf1 st st2 word v h)

/-- Witness for C4: after a first successful lookup of `cat` from the fresh
state, a second lookup answers from the cache even though its transport
oracle would fail every attempt. -/
theorem getFreq_cache_hit_after_resolve_witness :
    getFreq 4 (errA 500) rfWE stCat "cat" = (.ok (some demoFreq), stCat) :=
  getFreq_cache_hit_after_resolve 4 4 okA (errA 500) rfWE rfWE st0 stCat "cat"
    (some demoFreq) (by decide)

/-- The cache a `getFreq` call leaves behind is the one it started from,
or — only when the word's lowercased key was missing — that cache with one
value stored under that key. -/
theorem getFreq_cache_shape (retries : ℕ) (a : ℕ → FreqAttempt) (rf : ℕ → String × String)
    (st : RecorderState) (word : String) :
    (getFreq retries a rf st word).2.cache = st.cache ∨
    (cacheLookup st.cache (lowerStr word) = none ∧
      ∃ v, (getFreq retries a rf st word).2.cache = cacheInsert st.cache (lowerStr word) v) := by
  cases hc : cacheLookup st.cache (lowerStr word) with
  | some v => left; simp [getFreq, hc]
  | none =>
    cases hw : st.whenParam with
    | none =>
      have hsh := getFreqLoop_cache_shape a rf (lowerStr word) retries 0 1 (applyRefresh st (rf 0))
      rcases hsh with h | ⟨v, hv⟩
      · left
        simp only [getFreq, hc, hw]
        exact h
      · right
        exact ⟨rfl, v, by simp only [getFreq, hc, hw]; exact hv⟩
    | some p =>
      have hsh := getFreqLoop_cache_shape a rf (lowerStr word) retries 0 0 st
      rcases hsh with h | ⟨v, hv⟩
      · left
        simp only [getFreq, hc, hw]
        exact h
      · right
        exact ⟨rfl, v, by simp only [getFreq, hc, hw]; exact hv⟩

/-- C8: `getFreq` — the only cache-touching operation — grows the cache
monotonically: every entry present before is still present with the same
value afterwards (so an entry, once written, is never overwritten with a
different value, and nothing is ever evicted), and any key present afterwards
was either already present or is the looked-up word's lowercased key. -/
theorem getFreq_cache_monotone (retries : ℕ) (a : ℕ → FreqAttempt) (rf : ℕ → String × String)
    (st : RecorderState) (word : String) :
    (∀ k v, cacheLookup st.cache k = some v →
      cacheLookup (getFreq retries a rf st word).2.cache k = some v) ∧
    (∀ k, cacheLookup (getFreq retries a rf st word).2.cache k ≠ none →
      cacheLookup st.cache k ≠ none ∨ k = lowerStr word) := by
  rcases getFreq_cache_shape retries a rf st word with h | ⟨hmiss, v, hv⟩
  · rw [h]
    exact ⟨fun k v hk => hk, fun k hk => Or.inl hk⟩
  · rw [hv]
    constructor
    · intro k v2 hk
      by_cases hkey : k = lowerStr word
      · rw [hkey] at hk
        rw [hk] at hmiss
        exact absurd hmiss (by simp)
      · rw [cacheLookup_insert_ne _ _ _ _ hkey]
        exact hk
    · intro k hk
      by_cases hkey : k = lowerStr word
      · exact Or.inr hkey
      · rw [cacheLookup_insert_ne _ _ _ _ hkey] at hk
        exact Or.inl hk

/-- Witness for C8: a lookup of `dog` on a state whose cache holds `cat`
keeps the `cat` entry intact, and the new state's `dog` entry is accounted
for by the second disjunct. -/
theorem getFreq_cache_monotone_witness :
    cacheLookup (getFreq 4 okA rfWE stCat "dog").2.cache "cat" = some (some demoFreq) ∧
    (cacheLookup stCat.cache "dog" ≠ none ∨ "dog" = lowerStr "dog") :=
  ⟨(getFreq_cache_monotone 4 okA rfWE stCat "dog").1 "cat" (some demoFreq) (by decide),
    (getFreq_cache_monotone 4 okA rfWE stCat "dog").2 "dog" (by decide)⟩

/-- Any retry loop whose transport succeeds immediately resolves with the
fetched record. -/
theorem getFreqLoop_const_ok (f : IWordFreq) (rf : ℕ → String × String) (key : String)
    (rl i j : ℕ) (st : RecorderState) :
    (getFreqLoop (fun _ => .ok f) rf key rl i j st).1 = .ok (some f) := by
  cases rl <;> simp [getFreqLoop]

/-- A `getFreq` call that rejects was a cache miss and did not write the cache. -/
theorem getFreq_err_means_miss (retries : ℕ) (a : ℕ → FreqAttempt) (rf : ℕ → String × String)
    (st st2 : RecorderState) (word : String) (e : ℕ)
    (h : getFreq retries a rf st word = (.err e, st2)) :
    cacheLookup st.cache (lowerStr word) = none ∧ st2.cache = st.cache := by
  cases hc : cacheLookup st.cache (lowerStr word) with
  | some v =>
    rw [getFreq_hit retries a rf st word v hc] at h
    exact absurd (congrArg Prod.fst h) (by simp)
  | none =>
    refine ⟨rfl, ?_⟩
    simp only [getFreq, hc] at h
    cases hw : st.whenParam with
    | none =>
      simp only [hw] at h
      exact getFreqLoop_err_cache a rf (lowerStr word) retries 0 1 (applyRefresh st (rf 0)) st2 e h
    | some p =>
      simp only [hw] at h
      exact getFreqLoop_err_cache a rf (lowerStr word) retries 0 0 st st2 e h

/-- C10: `getFreq` is atomic on error with respect to the cache: a rejected
lookup leaves the cache exactly as it was, in particular with no entry under
the word's lowercased key, so a later call on the same word goes back to the
transport (here: a now-succeeding transport is actually consulted and its
record returned) instead of hitting the cache. -/
theorem getFreq_error_atomic (retries : ℕ) (a : ℕ → FreqAttempt) (rf : ℕ → String × String)
    (st st2 : RecorderState) (word : String) (e : ℕ)
    (h : getFreq retries a rf st word = (.err e, st2)) :
    st2.cache = st.cache ∧ cacheLookup st2.cache (lowerStr word) = none ∧
    ∀ (f : IWordFreq) (rf2 : ℕ → String × String),
      (getFreq retries (fun _ => .ok f) rf2 st2 word).1 = .ok (some f) := by
  obtain ⟨hmiss, hcache⟩ := getFreq_err_means_miss retries a rf st st2 word e h
  have hmiss2 : cacheLookup st2.cache (lowerStr word) = none := by rw [hcache]; exact hmiss
  refine ⟨hcache, hmiss2, ?_⟩
  intro f rf2
  cases hw : st2.whenParam with
  | none =>
    simp only [getFreq, hmiss2, hw]
    exact getFreqLoop_const_ok f rf2 (lowerStr word) retries 0 1 _
  | some p =>
    simp only [getFreq, hmiss2, hw]
    exact getFreqLoop_const_ok f rf2 (lowerStr word) retries 0 0 st2

/-- Witness for C10: a retry-exhausted lookup of `cat` from the fresh state
leaves the cache empty and a retried lookup consults the transport. -/
theorem getFreq_error_atomic_witness :
    stErr.cache = st0.cache ∧ cacheLookup stErr.cache (lowerStr "cat") = none ∧
    (getFreq 4 (fun _ => .ok demoFreq) rfWE stErr "cat").1 = .ok (some demoFreq) := by
  have h := getFreq_error_atomic 4 (errA 500) rfWE st0 stErr "cat" 500 (by decide)
  exact ⟨h.1, h.2.1, h.2.2 demoFreq rfWE⟩

/-- A retry loop all of whose attempts fail with non-404 statuses rejects
with the status of the last attempt (attempt number `i + rl`). -/
theorem getFreqLoop_all_fail (a : ℕ → FreqAttempt) (rf : ℕ → String × String)
    (key : String) (s : ℕ → ℕ) :
    ∀ (rl i j : ℕ) (st : RecorderState),
      (∀ m, m ≤ rl → a (i + m) = .httpErr (s (i + m))) →
      (∀ m, m ≤ rl → s (i + m) ≠ 404) →
      (getFreqLoop a rf key rl i j st).1 = .err (s (i + rl)) := by
  intro rl
  induction rl with
  | zero =>
    intro i j st ha h404
    have hA : a i = .httpErr (s i) := by simpa using ha 0 (Nat.le_refl 0)
    have h4 : ¬ s i = 404 := by simpa using h404 0 (Nat.le_refl 0)
    simp [getFreqLoop, hA, if_neg h4]
  | succ r ih =>
    intro i j st ha h404
    have hA : a i = .httpErr (s i) := by simpa using ha 0 (Nat.zero_le _)
    have h4 : ¬ s i = 404 := by simpa using h404 0 (Nat.zero_le _)
    have hstep :
        getFreqLoop a rf key (r + 1) i j st =
          getFreqLoop a rf key r (i + 1) (if s i = 401 then j + 1 else j)
            (if s i = 401 then applyRefresh st (rf j) else st) := by
      simp [getFreqLoop, hA, if_neg h4]
    have ha2 : ∀ m, m ≤ r → a (i + 1 + m) = .httpErr (s (i + 1 + m)) := by
      intro m hm
      have := ha (m + 1) (by omega)
      rw [show i + (m + 1) = i + 1 + m by omega] at this
      exact this
    have h42 : ∀ m, m ≤ r → s (i + 1 + m) ≠ 404 := by
      intro m hm
      have := h404 (m + 1) (by omega)
      rw [show i + (m + 1) = i + 1 + m by omega] at this
      exact this
    rw [hstep, show i + (r + 1) = i + 1 + r by omega]
    exact ih (i + 1) _ _ ha2 h42

/-- A cache-missing `getFreq` whose every transport attempt (there are
`retries + 1` of them) fails with a non-404 status rejects with the status of
the last attempt — the last error is surfaced. -/
theorem getFreq_exhaust_last_error (retries : ℕ) (a : ℕ → FreqAttempt)
    (rf : ℕ → String × String) (st : RecorderState) (word : String) (s : ℕ → ℕ)
    (hmiss : cacheLookup st.cache (lowerStr word) = none)
    (ha : ∀ i, i ≤ retries → a i = .httpErr (s i))
    (h404 : ∀ i, i ≤ retries → s i ≠ 404) :
    (getFreq retries a rf st word).1 = .err (s retries) := by
  have hall := getFreqLoop_all_fail a rf (lowerStr word) s retries 0
  cases hw : st.whenParam with
  | none =>
    simp only [getFreq, hmiss, hw]
    simpa using hall 1 (applyRefresh st (rf 0)) (by simpa using ha) (by simpa using h404)
  | some p =>
    simp only [getFreq, hmiss, hw]
    simpa using hall 0 st (by simpa using ha) (by simpa using h404)

/-- C2 (amended): when the first word of the tokenized message is uncached
and all of its `retries + 1` transport attempts fail with non-404 statuses,
`getFreq` rejects with the last attempt's error, `getWordFreqs` does not
catch it, and the whole `respond` call rejects with that same error instead
of producing a response. -/
theorem respond_freq_exhaustion_rejects (o : RespondOracles) (retries fuel : ℕ) (r : ℚ)
    (st : RecorderState) (question w : String) (ws : List String) (s : ℕ → ℕ)
    (hq : question ≠ "")
    (hw : o.wordsOf (lowerStr question) = w :: ws)
    (hmiss : cacheLookup st.cache (lowerStr w) = none)
    (ha : ∀ i, i ≤ retries → o.freqAttempt w i = .httpErr (s i))
    (h404 : ∀ i, i ≤ retries → s i ≠ 404) :
    (respondSentences o retries fuel r st question).1 = .error (s retries) := by
  have hfreq : (getFreq retries (o.freqAttempt w) o.refreshOf st w).1 = .err (s retries) :=
    getFreq_exhaust_last_error retries (o.freqAttempt w) o.refreshOf st w s hmiss ha h404
  have hwf :
      getWordFreqsE retries o.freqAttempt o.refreshOf st (o.wordsOf (lowerStr question)) [] =
        (.error (s retries), (getFreq retries (o.freqAttempt w) o.refreshOf st w).2) := by
    rw [hw]
    cases hg : getFreq retries (o.freqAttempt w) o.refreshOf st w with
    | mk res st2 =>
      have : res = .err (s retries) := by rw [← hfreq, hg]
      subst this
      simp [getWordFreqsE, hg]
  simp [respondSentences, respondTitles, hq, hwf]

/-- Witness for C2's amended theorem: with a transport that always answers
503 for the word `zap`, `respond` on the message `zap` rejects with 503. -/
theorem respond_freq_exhaustion_rejects_witness :
    (respondSentences failO 4 3 0 st0 "zap").1 = .error 503 :=
  respond_freq_exhaustion_rejects failO 4 3 0 st0 "zap" "zap" [] (fun _ => 503)
    (by decide) rfl rfl (fun _ _ => rfl) (fun _ _ => by show (503 : ℕ) ≠ 404; decide)

/-- Counterexample for C2 as stated: on the message `boom`, whose word's
frequency lookups all fail with 500 until the retry budget is exhausted, the
`respond` call rejects with the error — the ranking step does not treat the
word as having no data and no response is produced. -/
theorem respond_freq_exhaustion_rejects_cex :
    (respondSentences failO500 4 3 0 st0 "boom").1 = .error 500 := rfl

/-- The key list `getWordFreqs` accumulates never repeats a word. -/
theorem getWordFreqsE_nodup (retries : ℕ) (aOf : String → ℕ → FreqAttempt)
    (rf : ℕ → String × String) :
    ∀ (ws : List String) (st : RecorderState) (acc wf : List (String × IWordFreq))
      (st2 : RecorderState), (acc.map Prod.fst).Nodup →
      getWordFreqsE retries aOf rf st ws acc = (.ok wf, st2) →
      (wf.map Prod.fst).Nodup := by
  intro ws
  induction ws with
  | nil =>
    intro st acc wf st2 hnd h
    simp only [getWordFreqsE, Prod.mk.injEq, Except.ok.injEq] at h
    rw [← h.1]
    exact hnd
  | cons w ws ih =>
    intro st acc wf st2 hnd h
    simp only [getWordFreqsE] at h
    by_cases hmem : w ∈ acc.map Prod.fst
    · rw [if_pos hmem] at h
      exact ih _ _ _ _ hnd h
    · rw [if_neg hmem] at h
      cases hg : getFreq retries (aOf w) rf st w with
      | mk res st3 =>
        rw [hg] at h
        cases res with
        | ok ofreq =>
          cases ofreq with
          | some f =>
            have hnd2 : ((acc ++ [(w, f)]).map Prod.fst).Nodup := by
              rw [List.map_append]
              simp [List.nodup_append, hnd, hmem]
            exact ih _ _ _ _ hnd2 h
          | none => exact ih _ _ _ _ hnd h
        | err e =>
          simp only [Prod.mk.injEq] at h
          exact absurd h.1 (by simp)

/-- C5: the ranked word sequence `wordsByFreq` built by `respond` contains
only words whose record lies strictly below the 1000 per-million threshold,
never repeats a word, and (at the pair level) is sorted ascending by
`perMillion`; words lacking frequency data never enter the record at all. -/
theorem rank_filters_sorts_nodup (o : RespondOracles) (retries : ℕ)
    (st st2 : RecorderState) (question : String) (wf : List (String × IWordFreq))
    (h : getWordFreqsE retries o.freqAttempt o.refreshOf st (o.wordsOf (lowerStr question)) [] =
      (.ok wf, st2)) :
    (∀ w ∈ rankWords wf, ∃ f, (w, f) ∈ wf ∧ f.perMillion < 1000) ∧
    (rankWords wf).Nodup ∧
    List.Sorted (fun p q => p.2.perMillion ≤ q.2.perMillion) (rankedPairs wf) ∧
    rankWords wf = (rankedPairs wf).map Prod.fst := by
  have hperm : List.Perm (rankedPairs wf)
      (wf.filter (fun p => decide (p.2.perMillion < 1000))) :=
    List.perm_insertionSort _ _
  have hkeys : (wf.map Prod.fst).Nodup :=
    getWordFreqsE_nodup retries o.freqAttempt o.refreshOf _ st [] wf st2 (by simp) h
  refine ⟨?_, ?_, ?_, rfl⟩
  · intro w hw
    rw [rankWords, List.mem_map] at hw
    obtain ⟨p, hp, hfst⟩ := hw
    have hpf := hperm.mem_iff.mp hp
    rw [List.mem_filter] at hpf
    refine ⟨p.2, ?_, by simpa using hpf.2⟩
    rw [← hfst]
    simpa using hpf.1
  · have h1 : ((wf.filter (fun p => decide (p.2.perMillion < 1000))).map Prod.fst).Nodup :=
      ((List.filter_sublist _).map Prod.fst).nodup hkeys
    rw [rankWords]
    exact ((hperm.map Prod.fst).nodup_iff).mpr h1
  · haveI : IsTotal (String × IWordFreq)
        (fun p q => p.2.perMillion ≤ q.2.perMillion) := ⟨fun p q => le_total _ _⟩
    haveI : IsTrans (String × IWordFreq)
        (fun p q => p.2.perMillion ≤ q.2.perMillion) := ⟨fun a b c hab hbc => le_trans hab hbc⟩
    exact List.sorted_insertionSort _ _

/-- Witness for C5: for the message tokenized to `aa, bb` with records 300
and 5 per million, the rare word is ranked, the ranking has no duplicates and
the pairs are in ascending `perMillion` order. -/
theorem rank_filters_sorts_nodup_witness :
    (∃ f, ("bb", f) ∈ wfDemo ∧ f.perMillion < 1000) ∧ (rankWords wfDemo).Nodup ∧
    List.Sorted (fun p q => p.2.perMillion ≤ q.2.perMillion) (rankedPairs wfDemo) := by
  have h := rank_filters_sorts_nodup rankO 4 st0 stRank "hi" wfDemo rfl
  exact ⟨h.1 "bb" (by decide), h.2.1, h.2.2.1⟩

/-- Titles already resolved stay in the result of the search loop. -/
theorem resolveTitles_acc_mem (searchOf : String → Except Unit (List String)) (count : ℕ) :
    ∀ (l acc : List String) (x : String), x ∈ acc →
      x ∈ resolveTitles searchOf count l acc := by
  intro l
  induction l with
  | nil => intro acc x hx; simpa [resolveTitles] using hx
  | cons w rest ih =>
    intro acc x hx
    simp only [resolveTitles]
    by_cases hlen : acc.length < count
    · rw [if_pos hlen]
      cases hs : searchOf w with
      | ok ts =>
        apply ih
        by_cases hts : 0 < ts.length
        · rw [if_pos hts]
          exact List.mem_append_left _ hx
        · rw [if_neg hts]
          exact hx
      | error e => exact ih _ _ hx
    · rw [if_neg hlen]
      exact hx

/-- C3 (amended): a candidate word whose search returns a non-empty result
sequence, examined while the title budget is unfilled, contributes the
candidate word itself — not the search-returned title — to the resolved
title set. -/
theorem resolveTitles_pushes_word (searchOf : String → Except Unit (List String))
    (count : ℕ) (w : String) (rest acc ts : List String)
    (hs : searchOf w = .ok ts) (hts : ts ≠ []) (hlen : acc.length < count) :
    w ∈ resolveTitles searchOf count (w :: rest) acc := by
  simp only [resolveTitles, if_pos hlen, hs, List.length_pos.mpr hts, if_pos]
  exact resolveTitles_acc_mem searchOf count rest _ w
    (List.mem_append_right _ (List.mem_singleton_self w))

/-- Witness for C3's amended theorem: the word `cat`, whose search returns
`Cat`, ends up in the resolved title set itself. -/
theorem resolveTitles_pushes_word_witness :
    "cat" ∈ resolveTitles catO.searchOf 2 ["cat"] [] :=
  resolveTitles_pushes_word catO.searchOf 2 "cat" [] [] ["Cat"] rfl (by decide) (by decide)

/-- Counterexample for C3 as stated: in the spec's own scenario — message
`cat`, `cat` rare, search returning the title `Cat` — the resolved title set
handed to excerpt fetching is `[cat, R]` (the word itself plus a random
top-up), which does not include the search-returned title `Cat`. -/
theorem resolveTitles_keeps_word_cex :
    (respondTitles catO 4 0 st0 "cat").1 = .ok ["cat", "R"] ∧
    "Cat" ∉ ["cat", "R"] := by
  constructor
  · simp only [respondTitles, targetOf_zero]
    rfl
  · decide

/-- The echo excerpt oracle satisfies the spec's productivity precondition. -/
theorem exEcho_productive : exFetchProductive exEcho := by
  intro k ts hts
  cases ts with
  | nil => exact absurd rfl hts
  | cons t rest => simp [exEcho]

/-- A batch built while the shortfall is positive is never empty, provided
positive random draws return at least one title. -/
theorem nextBatch_ne_nil (rt : ℕ → ℕ → List String) (j short : ℕ) (nextTitles : List String)
    (hrt : ∀ j2 n, 1 ≤ n → rt j2 n ≠ []) (hshort : 1 ≤ short) :
    nextBatch rt j short nextTitles ≠ [] := by
  unfold nextBatch
  split
  · intro hcontra
    exact hrt j short hshort (List.append_eq_nil.mp hcontra).2
  · rename_i hge
    intro hc
    apply hge
    rw [hc]
    simpa using hshort

/-- Progress: with productive draws and fetches the fill loop exits as soon
as the accumulated sets plus the remaining fuel cover the target. -/
theorem fillLoop_progress (rt : ℕ → ℕ → List String)
    (ex : ℕ → List String → List (List String)) (target : ℕ)
    (hrt : ∀ j2 n, 1 ≤ n → rt j2 n ≠ []) (hex : exFetchProductive ex) :
    ∀ (fuel j k : ℕ) (excerpts : List (List String)) (nextTitles : List String),
      target ≤ excerpts.length + fuel →
      (fillLoop rt ex (fuel + 1) j k excerpts nextTitles target).isSome = true := by
  intro fuel
  induction fuel with
  | zero =>
    intro j k excerpts nextTitles hle
    simp only [fillLoop]
    split
    · rename_i hlt
      rw [List.length_append] at hlt
      omega
    · rfl
  | succ f ih =>
    intro j k excerpts nextTitles hle
    by_cases hdone : target ≤ excerpts.length
    · simp only [fillLoop]
      split
      · rename_i hlt
        rw [List.length_append] at hlt
        omega
      · rfl
    · push_neg at hdone
      have hshort : 1 ≤ target - excerpts.length := by omega
      have hne := nextBatch_ne_nil rt j (target - excerpts.length) nextTitles hrt hshort
      have hpos : 1 ≤ ((ex k (nextBatch rt j (target - excerpts.length) nextTitles)).filter
          (fun e => decide (0 < e.length))).length :=
        List.length_pos.mpr (hex k _ hne)
      simp only [fillLoop]
      split
      · apply ih
        rw [List.length_append]
        omega
      · rfl

/-- C7 (amended): provided additionally that every random-title draw for a
positive count returns at least one title, the loop of `fillWithRandom`
reaches the target count within `target + 1` iterations and returns, from any
starting title list. -/
theorem fillLoop_terminates (rt : ℕ → ℕ → List String)
    (ex : ℕ → List String → List (List String)) (target : ℕ) (titles : List String) (j : ℕ)
    (hrt : ∀ j2 n, 1 ≤ n → rt j2 n ≠ []) (hex : exFetchProductive ex) :
    (fillLoop rt ex (target + 1) j 0 [] titles target).isSome = true :=
  fillLoop_progress rt ex target hrt hex target j 0 [] titles (by simp)

/-- Witness for C7's amended theorem at a concrete configuration. -/
theorem fillLoop_terminates_witness :
    (fillLoop (fun _ _ => ["T"]) exEcho (2 + 1) 1 0 [] [] 2).isSome = true :=
  fillLoop_terminates (fun _ _ => ["T"]) exEcho 2 [] 1
    (fun _ _ _ => List.cons_ne_nil "T" []) exEcho_productive

/-- With no random titles ever drawn and nothing to fetch, the fill loop
makes no progress at any fuel. -/
theorem fillLoop_rtEmpty_none :
    ∀ (fuel j k : ℕ), fillLoop rtEmpty exEcho fuel j k [] [] 2 = none := by
  intro fuel
  induction fuel with
  | zero => intro j k; rfl
  | succ f ih =>
    intro j k
    simp only [fillLoop, nextBatch, rtEmpty, exEcho]
    simpa using ih (j + 1) (k + 1)

/-- Counterexample for C7 as stated: the excerpt-fetch precondition (every
non-empty title batch yields a non-empty ExcerptSet) holds, yet the loop,
started with no titles against a random-titles collaborator that returns no
titles, never accumulates a set and never exits. -/
theorem fillLoop_terminates_cex :
    exFetchProductive exEcho ∧ fillLoopDiverges rtEmpty exEcho 1 0 [] [] 2 :=
  ⟨exEcho_productive, fun fuel => fillLoop_rtEmpty_none fuel 1 0⟩

/-- The fill loop only exits once it holds at least `target` ExcerptSets. -/
theorem fillLoop_some_ge (rt : ℕ → ℕ → List String)
    (ex : ℕ → List String → List (List String)) (target : ℕ) :
    ∀ (fuel j k : ℕ) (excerpts : List (List String)) (nextTitles : List String)
      (res : List (List String)),
      fillLoop rt ex fuel j k excerpts nextTitles target = some res →
      target ≤ res.length := by
  intro fuel
  induction fuel with
  | zero => intro j k e nt res h; exact absurd h (by simp [fillLoop])
  | succ f ih =>
    intro j k excerpts nextTitles res h
    simp only [fillLoop] at h
    split at h
    · exact ih _ _ _ _ _ h
    · rename_i hge
      obtain rfl := Option.some.inj h
      omega

/-- Sampling yields exactly one sentence per accumulated ExcerptSet. -/
theorem composeSentencesAux_length (pick : ℕ → ℚ) :
    ∀ (excerpts : List (List String)) (i : ℕ),
      (composeSentencesAux pick i excerpts).length = excerpts.length := by
  intro excerpts
  induction excerpts with
  | nil => intro i; rfl
  | cons e rest ih => intro i; simp [composeSentencesAux, ih]

/-- Under exact-count random draws and at most one ExcerptSet per title, the
fill loop exits holding exactly `target` sets. -/
theorem fillLoop_exact (rt : ℕ → ℕ → List String)
    (ex : ℕ → List String → List (List String)) (target : ℕ)
    (hrt : ∀ j2 n, (rt j2 n).length = n)
    (hex : ∀ k2 ts, (ex k2 ts).length ≤ ts.length) :
    ∀ (fuel j k : ℕ) (excerpts : List (List String)) (nextTitles : List String)
      (res : List (List String)),
      excerpts.length ≤ target →
      (nextTitles = [] ∨ excerpts.length + nextTitles.length = target) →
      fillLoop rt ex fuel j k excerpts nextTitles target = some res →
      res.length = target := by
  intro fuel
  induction fuel with
  | zero => intro j k e nt res _ _ h; exact absurd h (by simp [fillLoop])
  | succ f ih =>
    intro j k excerpts nextTitles res hle hinv h
    have hnt : nextTitles.length = 0 ∨ excerpts.length + nextTitles.length = target := by
      rcases hinv with h0 | hs
      · left; rw [h0]; rfl
      · right; exact hs
    have hbatch :
        excerpts.length + (nextBatch rt j (target - excerpts.length) nextTitles).length ≤
          target := by
      unfold nextBatch
      split
      · rename_i hdraw
        rw [List.length_append, hrt]
        omega
      · rename_i hnodraw
        omega
    have hnew2 :
        ((ex k (nextBatch rt j (target - excerpts.length) nextTitles)).filter
            (fun e => decide (0 < e.length))).length ≤
          (nextBatch rt j (target - excerpts.length) nextTitles).length :=
      le_trans (List.length_filter_le _ _) (hex k _)
    simp only [fillLoop] at h
    split at h
    · refine ih _ _ _ _ _ ?_ (Or.inl rfl) h
      rw [List.length_append]
      omega
    · rename_i hge
      obtain rfl := Option.some.inj h
      rw [List.length_append] at hge ⊢
      omega

/-- The search loop of `respond` resolves at most `count` titles. -/
theorem resolveTitles_length_le (searchOf : String → Except Unit (List String)) (count : ℕ) :
    ∀ (l acc : List String), acc.length ≤ count →
      (resolveTitles searchOf count l acc).length ≤ count := by
  intro l
  induction l with
  | nil => intro acc h; simpa [resolveTitles] using h
  | cons w rest ih =>
    intro acc h
    simp only [resolveTitles]
    split
    · rename_i hlt
      cases hs : searchOf w with
      | ok ts =>
        apply ih
        split
        · rw [List.length_append]
          simp
          omega
        · exact h
      | error e => exact ih _ h
    · exact h

/-- Topping up a too-short title list with an exact-count random draw lands
exactly on the target. -/
theorem topUpTitles_length (rt : ℕ → ℕ → List String) (target : ℕ) (wt : List String)
    (hrt : ∀ j2 n, (rt j2 n).length = n) (hle : wt.length ≤ target) :
    (topUpTitles rt target wt).length = target := by
  unfold topUpTitles
  split
  · rw [List.length_append, hrt]
    omega
  · rename_i h
    omega

/-- The title list `respond` hands to `fillWithRandom` has exactly the drawn
target length, when random draws return the requested count. -/
theorem respondTitles_length (o : RespondOracles) (retries : ℕ) (r : ℚ)
    (st st2 : RecorderState) (question : String) (titles : List String)
    (hrt : ∀ j2 n, (o.rtOracle j2 n).length = n)
    (h : respondTitles o retries r st question = (.ok titles, st2)) :
    titles.length = targetOf r := by
  simp only [respondTitles] at h
  by_cases hq : question = ""
  · rw [if_pos hq] at h
    simp only [Prod.mk.injEq, Except.ok.injEq] at h
    rw [← h.1]
    exact topUpTitles_length _ _ _ hrt (by simp)
  · rw [if_neg hq] at h
    cases hg : getWordFreqsE retries o.freqAttempt o.refreshOf st
        (o.wordsOf (lowerStr question)) [] with
    | mk resE st3 =>
      rw [hg] at h
      cases resE with
      | error e =>
        simp only [Prod.mk.injEq] at h
        exact absurd h.1 (by simp)
      | ok wf =>
        simp only [Prod.mk.injEq, Except.ok.injEq] at h
        rw [← h.1]
        apply topUpTitles_length _ _ _ hrt
        split
        · exact resolveTitles_length_le o.searchOf (targetOf r) (rankWords wf) [] (by simp)
        · simp

/-- C1 (amended): a `respond` call uses all accumulated non-empty ExcerptSets
(one sentence each, no truncation); assuming every random-title draw returns
exactly the requested count and every excerpt fetch returns at most one
ExcerptSet per title, the number of sentences in the produced response equals
the target count drawn at the start of the call. -/
theorem respond_sentence_count (o : RespondOracles) (retries fuel : ℕ) (r : ℚ)
    (st st2 : RecorderState) (question : String) (sents : List String)
    (hrt : ∀ j2 n, (o.rtOracle j2 n).length = n)
    (hex : ∀ k2 ts, (o.exOracle k2 ts).length ≤ ts.length)
    (h : respondSentences o retries fuel r st question = (.ok (some sents), st2)) :
    sents.length = targetOf r := by
  simp only [respondSentences] at h
  cases hT : respondTitles o retries r st question with
  | mk resT st3 =>
    rw [hT] at h
    cases resT with
    | error e =>
      simp only [Prod.mk.injEq] at h
      exact absurd h.1 (by simp)
    | ok titles =>
      dsimp only at h
      have hlen : titles.length = targetOf r :=
        respondTitles_length o retries r st st3 question titles hrt hT
      cases hF : fillLoop o.rtOracle o.exOracle fuel 1 0 [] titles (targetOf r) with
      | none =>
        rw [hF] at h
        simp only [Prod.mk.injEq] at h
        exact absurd h.1 (by simp)
      | some excerpts =>
        rw [hF] at h
        simp only [Prod.mk.injEq, Except.ok.injEq, Option.some.injEq] at h
        have hexact : excerpts.length = targetOf r :=
          fillLoop_exact o.rtOracle o.exOracle (targetOf r) hrt hex fuel 1 0 [] titles
            excerpts (by simp) (Or.inr (by simpa using hlen)) hF
        rw [← h.1, composeSentences, composeSentencesAux_length, hexact]

/-- Counterexample for C1 as stated: with its random-title top-up returning
one title fewer than requested, this `respond` call draws target 2 but
accumulates three non-empty ExcerptSets in one batch and uses all of them:
the response has 3 sentences, not 2. -/
theorem respond_sentence_count_cex :
    (respondSentences c1O 4 2 0 st0 "").1 = .ok (some ["A.", "B.", "C."]) ∧
    targetOf 0 = 2 ∧ (["A.", "B.", "C."] : List String).length ≠ targetOf 0 := by
  refine ⟨?_, targetOf_zero, by rw [targetOf_zero]; decide⟩
  have h1 : topUpTitles c1O.rtOracle 2 [] = ["A"] := rfl
  have h2 : fillLoop c1O.rtOracle c1O.exOracle 2 1 0 [] ["A"] 2 =
      some [["A"], ["B"], ["C"]] := rfl
  have hp : c1O.pick = fun _ => 0 := rfl
  simp only [respondSentences, respondTitles, targetOf_zero, h1, h2, composeSentences, hp,
    composeSentencesAux_zero]
  rfl

/-- Witness for C1's amended theorem: with exact-count draws a target-2 call
produces exactly 2 sentences. -/
theorem respond_sentence_count_witness :
    (["T.", "T."] : List String).length = targetOf 0 := by
  have h1 : topUpTitles c1wO.rtOracle 2 [] = ["T", "T"] := rfl
  have h2 : fillLoop c1wO.rtOracle c1wO.exOracle 2 1 0 [] ["T", "T"] 2 =
      some [["T"], ["T"]] := rfl
  have hp : c1wO.pick = fun _ => 0 := rfl
  have h : respondSentences c1wO 4 2 0 st0 "" = (.ok (some ["T.", "T."]), st0) := by
    simp only [respondSentences, respondTitles, targetOf_zero, h1, h2, composeSentences, hp,
      composeSentencesAux_zero]
    rfl
  exact respond_sentence_count c1wO 4 2 0 st0 st0 "" ["T.", "T."]
    (fun j2 n => show (List.replicate n "T").length = n from List.length_replicate ..)
    (fun k2 ts => show (ts.map (fun t => [t])).length ≤ ts.length from
      le_of_eq (List.length_map ..))
    h

end MWAdv
